/-
Verification of the codex-proxy translation pipeline.

This file gives a shallow embedding, in Lean 4, of the core translation
pipeline of the codex-proxy repository: the backend selector
(app/routers/chat.py, get_executor), the tool-call extractor and the
response assembler (app/services/response_mapper.py), the plain-text
transcript parser and the streaming subprocess loop of the Codex adapter
(app/services/codex_executor.py), the OpenCode event mapping
(app/services/opencode_executor.py), and the data models they use
(app/models/codex.py, app/models/openai.py).

Python strings are modelled by Lean `String`, Python `None`/optional values by
`Option`, Python dict payloads by records restricted to the keys the code
reads, and subprocess behaviour by explicit inputs (the list of stdout lines,
the exit code, the captured stderr text).  Nondeterministic inputs of the
source (uuid-generated ids, wall-clock timestamps) are passed in as explicit
parameters.  Theorems about each component follow the definitions.
-/

import Mathlib

set_option linter.unusedVariables false

/-! ## Python string primitives

Models of the Python `str` operations the source uses: `str.strip()`,
`str.replace(',', '')`, `str.startswith`, `int(...)`, `str.split('\n')`.
-/

/-- The ASCII whitespace characters recognised by Python's `str.strip()` and
by the regex class `\s` (the source only ever feeds ASCII markers through
these, so the unicode extras of Python are irrelevant here). -/
def pyIsSpace (c : Char) : Bool :=
  c == ' ' || c == '\t' || c == '\n' || c == '\r' || c == '\x0b' || c == '\x0c'

/-- Python `str.strip()` on a list of characters: drop whitespace from both
ends. -/
def pyStripList (l : List Char) : List Char :=
  ((l.dropWhile pyIsSpace).reverse.dropWhile pyIsSpace).reverse

/-- Python `str.strip()`. -/
def pyStrip (s : String) : String :=
  String.mk (pyStripList s.toList)

/-- Python `str.replace(',', '')`: delete every comma. -/
def removeCommas (s : String) : String :=
  String.mk (s.toList.filter (fun c => c != ','))

/-- Python `str.startswith(pat)`. -/
def pyStartsWith (s pat : String) : Bool :=
  pat.toList.isPrefixOf s.toList

/-- Digit parser for Python `int(...)`: accepts decimal digits with single
underscores between digit groups (Python allows `1_000`), rejects everything
else.  `acc` is the value read so far, `seenDigit` records whether the
previous character was a digit (an underscore is legal only there). -/
def pyDigits : List Char → Nat → Bool → Option Nat
  | [], acc, true => some acc
  | [], _, false => none
  | c :: cs, acc, seenDigit =>
    if c.isDigit then pyDigits cs (acc * 10 + (c.toNat - 48)) true
    else if c = '_' && seenDigit then pyDigits cs acc false
    else none

/-- Python `int(s)` for base 10: strip surrounding whitespace, an optional
sign, then digits; `none` models the `ValueError` the source catches. -/
def pyInt (s : String) : Option Int :=
  match pyStripList s.toList with
  | '-' :: rest => (pyDigits rest 0 false).map (fun n => -(n : Int))
  | '+' :: rest => (pyDigits rest 0 false).map (fun n => (n : Int))
  | cs => (pyDigits cs 0 false).map (fun n => (n : Int))

/-! ## Backend selection (app/routers/chat.py, get_executor) -/

/-- The two executor instances `get_executor` can return
(`codex_executor : CodexExecutor`, `opencode_executor : OpenCodeExecutor`). -/
inductive ExecutorKind where
  | codex
  | opencode
deriving DecidableEq, Repr

/-- `get_executor(model)` from app/routers/chat.py: route to OpenCode for the
`opencode-local` alias or a recognised `provider/` pattern, default to Codex
for every other string. -/
def getExecutor (model : String) : ExecutorKind :=
  if model = "opencode-local" ∨
      pyStartsWith model "anthropic/" = true ∨
      pyStartsWith model "openai/" = true ∨
      pyStartsWith model "opencode/" = true then
    ExecutorKind.opencode
  else
    ExecutorKind.codex

/-! ## Data models (app/models/codex.py, app/models/openai.py)

Pydantic models become Lean structures.  `Optional[...] = None` fields become
`Option` fields defaulting to `none`; `Literal[...]` string fields become
`String`.  The `Dict[str, Any]` payloads (`item`, and the raw OpenCode event)
are modelled by records holding exactly the keys the source ever reads, each
optional (a missing key reads as `none`).
-/

/-- The keys of a `codex --json` `item` dict that the source reads
(`item.get("type")`, `item.get("text", "")`, `item['name']`,
`item['arguments']`, `item['call_id']`, `item.get('id')`). -/
structure ItemDict where
  type : Option String := none
  text : Option String := none
  name : Option String := none
  arguments : Option String := none
  call_id : Option String := none
  id : Option String := none
deriving DecidableEq, Repr

/-- `CodexFunctionCall` from app/models/codex.py. -/
structure CodexFunctionCall where
  id : Option String := none
  name : String
  arguments : String
  call_id : String
deriving DecidableEq, Repr

/-- `CodexJsonEvent` from app/models/codex.py.  The `usage` dict is only ever
logged by the consumers in this repository, so its payload is modelled as an
opaque key/value list. -/
structure CodexJsonEvent where
  type : String
  thread_id : Option String := none
  item : Option ItemDict := none
  usage : Option (List (String × Int)) := none
deriving DecidableEq, Repr

/-- `CodexJsonEvent.extract_function_call` from app/models/codex.py: `None`
unless the item is a `function_call` carrying the `name`, `arguments` and
`call_id` keys (a missing key raises `KeyError`, which the source catches and
turns into `None`). -/
def CodexJsonEvent.extract_function_call (e : CodexJsonEvent) : Option CodexFunctionCall :=
  match e.item with
  | none => none
  | some it =>
    if it.type ≠ some "function_call" then none
    else
      match it.name, it.arguments, it.call_id with
      | some n, some a, some c => some { id := it.id, name := n, arguments := a, call_id := c }
      | _, _, _ => none

/-- `CodexUsage` from app/models/codex.py. -/
structure CodexUsage where
  input_tokens : Int
  cached_input_tokens : Int := 0
  output_tokens : Int
deriving DecidableEq, Repr

/-- The `CodexUsage.total_tokens` property: input plus output. -/
def CodexUsage.total_tokens (u : CodexUsage) : Int :=
  u.input_tokens + u.output_tokens

/-- `CodexResponse` from app/models/codex.py. -/
structure CodexResponse where
  content : String
  usage : CodexUsage
  thread_id : Option String := none
deriving DecidableEq, Repr

/-- `FunctionCallDetails` from app/models/openai.py. -/
structure FunctionCallDetails where
  name : String
  arguments : String
deriving DecidableEq, Repr

/-- `ToolCall` from app/models/openai.py. -/
structure ToolCall where
  id : String
  type : String := "function"
  function : FunctionCallDetails
deriving DecidableEq, Repr

/-- `Message` from app/models/openai.py (response side: the assistant message
the mapper builds). -/
structure Message where
  role : String
  content : Option String := none
  tool_calls : Option (List ToolCall) := none
  tool_call_id : Option String := none
  name : Option String := none
deriving DecidableEq, Repr

/-- `Usage` from app/models/openai.py. -/
structure Usage where
  prompt_tokens : Int
  completion_tokens : Int
  total_tokens : Int
deriving DecidableEq, Repr

/-- `Choice` from app/models/openai.py. -/
structure Choice where
  index : Nat
  message : Message
  finish_reason : String
deriving DecidableEq, Repr

/-- `ChatCompletionResponse` from app/models/openai.py. -/
structure ChatCompletionResponse where
  id : String
  object : String := "chat.completion"
  created : Int
  model : String := "codex-local"
  choices : List Choice
  usage : Usage
deriving DecidableEq, Repr

/-- `ChoiceDelta` from app/models/openai.py. -/
structure ChoiceDelta where
  role : Option String := none
  content : Option String := none
  tool_calls : Option (List ToolCall) := none
deriving DecidableEq, Repr

/-- `StreamChoice` from app/models/openai.py. -/
structure StreamChoice where
  index : Nat
  delta : ChoiceDelta
  finish_reason : Option String := none
deriving DecidableEq, Repr

/-- `ChatCompletionStreamResponse` from app/models/openai.py. -/
structure ChatCompletionStreamResponse where
  id : String
  object : String := "chat.completion.chunk"
  created : Int
  model : String := "codex-local"
  choices : List StreamChoice
deriving DecidableEq, Repr

/-! ## Plain-text transcript parsing
(app/services/codex_executor.py, CodexExecutor._parse_standard_output) -/

/-- The line scan of `_parse_standard_output`: walk the lines with the
`in_response` flag and the accumulated content lines; a line stripping to
`"codex"` turns the flag on, the first line stripping to `"tokens used"`
stops the walk and reads the token count from the following line (0 when
there is no following line or `int()` fails — the caught `ValueError`),
any other line is kept as content exactly when the flag is on. -/
def parseLoop : List String → Bool → List String → List String × Int
  | [], _, acc => (acc, 0)
  | line :: rest, inResponse, acc =>
    let stripped := pyStrip line
    if stripped = "codex" then parseLoop rest true acc
    else if stripped = "tokens used" then
      match rest with
      | [] => (acc, 0)
      | nxt :: _ =>
        match pyInt (removeCommas (pyStrip nxt)) with
        | some t => (acc, t)
        | none => (acc, 0)
    else if inResponse then parseLoop rest inResponse (acc ++ [line])
    else parseLoop rest inResponse acc

/-- `int(tokens * 0.8)` from `_parse_standard_output`.  The source computes
this with an IEEE double multiplication; truncated integer division by 10 of
`tokens * 8` agrees with it at every magnitude the token counter can reach
(the two could only differ when `tokens * 0.8` is within the double rounding
error of an integer boundary, which first happens beyond 10^15). -/
def heuristicInputTokens (tokens : Int) : Int :=
  Int.tdiv (tokens * 8) 10

/-- `CodexExecutor._parse_standard_output`, after the initial
`output.strip().split('\n')`: extract the content between the `codex` marker
and the `tokens used` marker, parse the combined token count (commas
stripped), and split it 80/20 into input/output tokens. -/
def parseStandardOutputLines (lines : List String) : CodexResponse :=
  let r := parseLoop lines false []
  let content := pyStrip (String.intercalate "\n" r.1)
  let input_tokens := heuristicInputTokens r.2
  let output_tokens := r.2 - input_tokens
  { content := content,
    usage := { input_tokens := input_tokens, output_tokens := output_tokens } }

/-- `CodexExecutor._parse_standard_output` on the raw output string:
`lines = output.strip().split('\n')` then the line scan. -/
def parseStandardOutput (output : String) : CodexResponse :=
  parseStandardOutputLines ((pyStrip output).splitOn "\n")

/-! ## Tool-call extraction
(app/services/response_mapper.py, _extract_tool_calls_from_text)

The source scans the text with the regex

  `\{\s*"name"\s*:\s*"([^"]+)"\s*,\s*"arguments"\s*:\s*(\{[^}]*\})\s*\}`

via `re.finditer`, and removes the very same matches via `re.sub` with the
same pattern.  For this pattern the regex engine is deterministic: every
quantified piece (`\s*`, `[^"]+`, `[^}]*`) is a character class that excludes
the character required right after it, so greedy matching is exactly
"take while in the class, then require the closer".  `matchCallAt` is this
match attempt at one position; `scanFrom` is the left-to-right non-overlapping
scan both `finditer` and `sub` perform, returning for each match the unmatched
gap before it, the two capture groups and the whole matched substring, plus
the unmatched tail after the last match.
-/

/-- Consume one expected character. -/
def chompChar (c : Char) : List Char → Option (List Char)
  | x :: xs => if x = c then some xs else none
  | [] => none

/-- Consume an expected literal. -/
def chompLit : List Char → List Char → Option (List Char)
  | [], s => some s
  | c :: cs, s =>
    match chompChar c s with
    | some s' => chompLit cs s'
    | none => none

/-- Consume `\s*`. -/
def skipWs (s : List Char) : List Char :=
  s.dropWhile pyIsSpace

/-- Consume `([^"]+)"`: the captured name, which must be non-empty, up to the
closing quote.  Returns (capture, rest after the quote). -/
def chompName (s : List Char) : Option (List Char × List Char) :=
  let nm := s.takeWhile (fun c => c != '"')
  if nm = [] then none
  else
    match s.dropWhile (fun c => c != '"') with
    | '"' :: r => some (nm, r)
    | _ => none


/-- Consume `(\{[^}]*\})`: the captured arguments object, braces included.
Returns (capture, rest after the closing brace). -/
def chompArgs (s : List Char) : Option (List Char × List Char) :=
  (chompChar '\x7b' s).bind fun s1 =>
    let inner := s1.takeWhile (fun c => c != '\x7d')
    (chompChar '\x7d' (s1.dropWhile (fun c => c != '\x7d'))).map fun r =>
      ('\x7b' :: (inner ++ ['\x7d']), r)

/-- One attempt of the tool-call regex at the head of `s`: on success,
(name capture, arguments capture, rest of the text after the match). -/
def matchCallAt (s : List Char) : Option (List Char × List Char × List Char) :=
  (chompChar '\x7b' s).bind fun s1 =>
  (chompLit "\"name\"".toList (skipWs s1)).bind fun s2 =>
  (chompChar ':' (skipWs s2)).bind fun s3 =>
  (chompChar '"' (skipWs s3)).bind fun s4 =>
  (chompName s4).bind fun p =>
  (chompChar ',' (skipWs p.2)).bind fun s6 =>
  (chompLit "\"arguments\"".toList (skipWs s6)).bind fun s7 =>
  (chompChar ':' (skipWs s7)).bind fun s8 =>
  (chompArgs (skipWs s8)).bind fun q =>
  (chompChar '\x7d' (skipWs q.2)).map fun rest =>
  (p.1, q.1, rest)

theorem chompChar_eq_some {c : Char} {s r : List Char} (h : chompChar c s = some r) :
    s = c :: r := by
  match s with
  | [] => simp [chompChar] at h
  | x :: xs =>
    simp only [chompChar] at h
    split at h
    · next hx => cases h; rw [hx]
    · cases h

theorem chompLit_suffix {pat s r : List Char} (h : chompLit pat s = some r) :
    r <:+ s := by
  induction pat generalizing s with
  | nil => simp [chompLit] at h; simp [h]
  | cons c cs ih =>
    simp only [chompLit] at h
    split at h
    · next s' hs' =>
      exact (ih h).trans (chompChar_eq_some hs' ▸ List.suffix_cons c s')
    · cases h

theorem skipWs_suffix (s : List Char) : skipWs s <:+ s :=
  List.dropWhile_suffix pyIsSpace

theorem chompName_suffix {s nm r : List Char} (h : chompName s = some (nm, r)) :
    r <:+ s := by
  simp only [chompName] at h
  split at h
  · cases h
  · split at h
    · next heq =>
      cases h
      exact ((List.suffix_cons _ _).trans (heq ▸ List.dropWhile_suffix _))
    · cases h

theorem chompArgs_suffix {s args r : List Char} (h : chompArgs s = some (args, r)) :
    r <:+ s := by
  simp only [chompArgs] at h
  obtain ⟨s1, h1, h⟩ := Option.bind_eq_some.mp h
  obtain ⟨r2, h2, hr⟩ := Option.map_eq_some'.mp h
  have hrest : r = r2 := (congrArg Prod.snd hr).symm
  rw [hrest]
  calc r2 <:+ s1.dropWhile (fun c => c != '\x7d') :=
        chompChar_eq_some h2 ▸ List.suffix_cons _ _
    _ <:+ s1 := List.dropWhile_suffix _
    _ <:+ s := chompChar_eq_some h1 ▸ List.suffix_cons _ _

theorem matchCallAt_suffix {s nm args rest : List Char}
    (h : matchCallAt s = some (nm, args, rest)) :
    rest <:+ s ∧ rest.length < s.length := by
  simp only [matchCallAt] at h
  obtain ⟨s1, h1, h⟩ := Option.bind_eq_some.mp h
  obtain ⟨s2, h2, h⟩ := Option.bind_eq_some.mp h
  obtain ⟨s3, h3, h⟩ := Option.bind_eq_some.mp h
  obtain ⟨s4, h4, h⟩ := Option.bind_eq_some.mp h
  obtain ⟨p, h5, h⟩ := Option.bind_eq_some.mp h
  obtain ⟨s6, h6, h⟩ := Option.bind_eq_some.mp h
  obtain ⟨s7, h7, h⟩ := Option.bind_eq_some.mp h
  obtain ⟨s8, h8, h⟩ := Option.bind_eq_some.mp h
  obtain ⟨q, h9, h⟩ := Option.bind_eq_some.mp h
  obtain ⟨r2, h10, hr⟩ := Option.map_eq_some'.mp h
  have hrest : rest = r2 := (congrArg (fun t => t.2.2) hr).symm
  rw [hrest]
  have suf : r2 <:+ s1 :=
    calc r2 <:+ skipWs q.2 := chompChar_eq_some h10 ▸ List.suffix_cons _ _
      _ <:+ q.2 := skipWs_suffix _
      _ <:+ skipWs s8 := chompArgs_suffix ((Prod.mk.eta (p := q)) ▸ h9)
      _ <:+ s8 := skipWs_suffix _
      _ <:+ skipWs s7 := chompChar_eq_some h8 ▸ List.suffix_cons _ _
      _ <:+ s7 := skipWs_suffix _
      _ <:+ skipWs s6 := chompLit_suffix h7
      _ <:+ s6 := skipWs_suffix _
      _ <:+ skipWs p.2 := chompChar_eq_some h6 ▸ List.suffix_cons _ _
      _ <:+ p.2 := skipWs_suffix _
      _ <:+ s4 := chompName_suffix ((Prod.mk.eta (p := p)) ▸ h5)
      _ <:+ skipWs s3 := chompChar_eq_some h4 ▸ List.suffix_cons _ _
      _ <:+ s3 := skipWs_suffix _
      _ <:+ skipWs s2 := chompChar_eq_some h3 ▸ List.suffix_cons _ _
      _ <:+ s2 := skipWs_suffix _
      _ <:+ skipWs s1 := chompLit_suffix h2
      _ <:+ s1 := skipWs_suffix _
  have hs1 : s = '\x7b' :: s1 := chompChar_eq_some h1
  refine ⟨suf.trans (hs1 ▸ List.suffix_cons _ _), ?_⟩
  have := suf.length_le
  rw [hs1]
  simp only [List.length_cons]
  omega

/-- One extracted regex match: the two capture groups and the whole matched
substring. -/
structure TCMatch where
  name : List Char
  args : List Char
  whole : List Char
deriving DecidableEq, Repr

/-- The left-to-right non-overlapping scan shared by `re.finditer` and
`re.sub`, written with explicit fuel so that it is structurally recursive
(each step consumes at least one character, so `s.length` fuel always
suffices — `scanFrom` below supplies it; the fuel-exhausted arm is never
reached from there).  At each position the scan tries the pattern; on a match
it records it and resumes after it, otherwise it moves one character ahead.
Returns the list of matches, each with the unmatched gap text before it, and
the unmatched tail after the last match. -/
def scanFromF : Nat → List Char → List (List Char × TCMatch) × List Char
  | 0, s => ([], s)
  | fuel + 1, s =>
    match matchCallAt s with
    | some (nm, args, rest) =>
      let whole := s.take (s.length - rest.length)
      let r := scanFromF fuel rest
      (([], { name := nm, args := args, whole := whole }) :: r.1, r.2)
    | none =>
      match s with
      | [] => ([], [])
      | c :: cs =>
        let r := scanFromF fuel cs
        match r.1 with
        | [] => ([], c :: r.2)
        | (g, m) :: ps => ((c :: g, m) :: ps, r.2)

/-- The regex scan of the whole text. -/
def scanFrom (s : List Char) : List (List Char × TCMatch) × List Char :=
  scanFromF s.length s

/-- `re.sub(r'\n{3,}', '\n\n', ·)` on a character list, with the same
explicit-fuel scheme (`collapseNl` supplies `l.length`): every maximal run of
three or more newlines becomes exactly two newlines (one blank line); shorter
runs are kept as they are. -/
def collapseNlF : Nat → List Char → List Char
  | 0, l => l
  | fuel + 1, l =>
    match l with
    | [] => []
    | c :: cs =>
      if c = '\n' then
        let n := (cs.takeWhile (fun x => x == '\n')).length + 1
        let tail := cs.dropWhile (fun x => x == '\n')
        (if 3 ≤ n then ['\n', '\n'] else List.replicate n '\n') ++ collapseNlF fuel tail
      else
        c :: collapseNlF fuel cs

/-- The newline collapse of the whole text. -/
def collapseNl (l : List Char) : List Char :=
  collapseNlF l.length l

/-- The text with every regex match deleted:
`re.sub(pattern, "", text, flags=re.DOTALL)`. -/
def removedText (text : String) : String :=
  let sc := scanFrom text.toList
  String.mk ((sc.1.map (fun p => p.1)).flatten ++ sc.2)

/-- `_extract_tool_calls_from_text` from app/services/response_mapper.py.
`idGen i` stands for the `f"call_{uuid.uuid4().hex[:24]}"` id freshly
generated for the i-th match (the source draws it from a random uuid, so it
is an input here).  No match: `(None, text)` unchanged.  Otherwise: one
`ToolCall` per match, and the text with the matches deleted, stripped, runs
of 3+ newlines collapsed, and turned into `None` when empty (Python
truthiness of the leftover string). -/
def extractToolCallsFromText (idGen : Nat → String) (text : String) :
    Option (List ToolCall) × Option String :=
  let sc := scanFrom text.toList
  let ms := sc.1.map (fun p => p.2)
  if ms.isEmpty then (none, some text)
  else
    let tool_calls := ms.enum.map (fun p =>
      { id := idGen p.1, type := "function",
        function := { name := String.mk p.2.name, arguments := String.mk p.2.args } : ToolCall })
    let remaining_text := pyStrip (removedText text)
    let remaining_text2 := String.mk (collapseNl remaining_text.toList)
    (some tool_calls, if remaining_text2 = "" then none else some remaining_text2)

/-! ## Non-streaming assembly
(app/services/response_mapper.py, ResponseMapper.create_non_streaming_response)

`chat_id` models `request_id or f"chatcmpl-{uuid.uuid4().hex[:24]}"` and
`created` models `int(time.time())`; both are nondeterministic inputs of the
source and are therefore parameters here, as is the uuid stream `idGen` the
tool-call extractor draws ids from.
-/

/-- `ResponseMapper.create_non_streaming_response`. -/
def createNonStreamingResponse (codexResponse : CodexResponse) (toolsEnabled : Bool)
    (idGen : Nat → String) (chatId : String) (created : Int) : ChatCompletionResponse :=
  let r :=
    if toolsEnabled then
      let e := extractToolCallsFromText idGen codexResponse.content
      -- `if tool_calls:` — Python truthiness of the extracted list
      if e.1.getD [] ≠ [] then (e.1, "tool_calls", e.2)
      else (e.1, "stop", some codexResponse.content)
    else (none, "stop", some codexResponse.content)
  { id := chatId,
    created := created,
    model := "codex-local",
    choices := [
      { index := 0,
        message := { role := "assistant", content := r.2.2, tool_calls := r.1 },
        finish_reason := r.2.1 }],
    usage := {
      prompt_tokens := codexResponse.usage.input_tokens,
      completion_tokens := codexResponse.usage.output_tokens,
      total_tokens := codexResponse.usage.total_tokens } }

/-! ## Streaming assembly
(app/services/response_mapper.py, ResponseMapper.create_streaming_response)

The async generator over `events` becomes a function from the (finite) list
of events to the list of yielded SSE frames.  A yielded
`f"data: {chunk.model_dump_json()}\n\n"` frame is `SSEFrame.data chunk`
(the JSON serialisation itself carries no logic and is left out of the
model); the final `"data: [DONE]\n\n"` yield is `SSEFrame.done`.
-/

/-- One yielded SSE frame: a serialised chunk, or the `[DONE]` sentinel. -/
inductive SSEFrame where
  | data (chunk : ChatCompletionStreamResponse)
  | done
deriving DecidableEq, Repr

/-- The final chunk of a stream: empty delta, non-null finish reason. -/
def finalChunk (chatId : String) (created : Int) (finishReason : String) :
    ChatCompletionStreamResponse :=
  { id := chatId, created := created, model := "codex-local",
    choices := [{ index := 0, delta := {}, finish_reason := some finishReason }] }

/-- The chunk yielded for a `function_call` item: the role marker on the
first chunk only, the call streamed as a delta, null finish reason. -/
def toolCallChunk (chatId : String) (created : Int) (firstChunk : Bool)
    (fc : CodexFunctionCall) : ChatCompletionStreamResponse :=
  { id := chatId, created := created, model := "codex-local",
    choices := [
      { index := 0,
        delta := {
          role := if firstChunk then some "assistant" else none,
          tool_calls := some [
            { id := fc.call_id, type := "function",
              function := { name := fc.name, arguments := fc.arguments } }] },
        finish_reason := none }] }

/-- The chunk yielded for an `agent_message` item: the first chunk carries
the role, later ones only content; null finish reason. -/
def agentMessageChunk (chatId : String) (created : Int) (firstChunk : Bool)
    (text : String) : ChatCompletionStreamResponse :=
  { id := chatId, created := created, model := "codex-local",
    choices := [
      { index := 0,
        delta :=
          if firstChunk then { role := some "assistant", content := some text }
          else { content := some text },
        finish_reason := none }] }

/-- The event loop of `create_streaming_response`, carrying the two state
bits `first_chunk` and `has_tool_calls` across the events.  Events of type
`"item.completed"` with a `function_call` item (tools enabled) or an
`agent_message` item yield one chunk each; every other event — including
`"turn.completed"` (whose usage dict is only stored and logged) and any
in-band `"error"` event — yields nothing.  After the last event: one chunk
with the finish reason, then the `[DONE]` sentinel. -/
def streamLoop (chatId : String) (created : Int) (toolsEnabled : Bool) :
    List CodexJsonEvent → Bool → Bool → List SSEFrame
  | [], _, hasToolCalls =>
    [SSEFrame.data (finalChunk chatId created (if hasToolCalls then "tool_calls" else "stop")),
     SSEFrame.done]
  | e :: es, firstChunk, hasToolCalls =>
    if e.type = "item.completed" then
      match e.item with
      | some item =>
        if item.type = some "function_call" ∧ toolsEnabled = true then
          match e.extract_function_call with
          | some fc =>
            SSEFrame.data (toolCallChunk chatId created firstChunk fc)
              :: streamLoop chatId created toolsEnabled es false true
          | none => streamLoop chatId created toolsEnabled es firstChunk hasToolCalls
        else if item.type = some "agent_message" then
          SSEFrame.data (agentMessageChunk chatId created firstChunk (item.text.getD ""))
            :: streamLoop chatId created toolsEnabled es false hasToolCalls
        else streamLoop chatId created toolsEnabled es firstChunk hasToolCalls
      | none => streamLoop chatId created toolsEnabled es firstChunk hasToolCalls
    else streamLoop chatId created toolsEnabled es firstChunk hasToolCalls

/-- `ResponseMapper.create_streaming_response` over a finite event sequence:
the loop started with `first_chunk = True`, `has_tool_calls = False`. -/
def createStreamingResponse (events : List CodexJsonEvent) (toolsEnabled : Bool)
    (chatId : String) (created : Int) : List SSEFrame :=
  streamLoop chatId created toolsEnabled events true false

/-! ## OpenCode event mapping
(app/services/opencode_executor.py, OpenCodeExecutor._map_opencode_event) -/

/-- The keys of a raw OpenCode JSON event that `_map_opencode_event` reads:
`type`, `part.text`, `error.name`, `error.data.message`. -/
structure OcErrorData where
  message : Option String := none
deriving DecidableEq, Repr

/-- The `error` dict of a raw OpenCode event. -/
structure OcErrorInfo where
  name : Option String := none
  data : Option OcErrorData := none
deriving DecidableEq, Repr

/-- The `part` dict of a raw OpenCode event. -/
structure OcPart where
  text : Option String := none
deriving DecidableEq, Repr

/-- A raw OpenCode JSON event, restricted to the keys the mapper reads. -/
structure OcEvent where
  type : Option String := none
  part : Option OcPart := none
  error : Option OcErrorInfo := none
deriving DecidableEq, Repr

/-- `OpenCodeExecutor._map_opencode_event`.  A `"text"` event with non-empty
text and an `"error"` event construct `CodexJsonEvent(type="message",
content=...)` and `CodexJsonEvent(type="error", error=...)` respectively in
the source; `CodexJsonEvent` has neither a `content` nor an `error` field, so
pydantic (default `extra='ignore'`) silently drops those keyword payloads and
only the `type` tag survives — which is what this model constructs. -/
def mapOpencodeEvent (e : OcEvent) : Option CodexJsonEvent :=
  let event_type := e.type.getD ""
  let part := e.part.getD {}
  if event_type = "text" then
    let text_content := part.text.getD ""
    if text_content ≠ "" then some { type := "message" } else none
  else if event_type = "step_finish" then some { type := "done" }
  else if event_type = "error" then
    let error_info := e.error.getD {}
    let error_data := error_info.data.getD {}
    let error_msg := error_data.message.getD (error_info.name.getD "Unknown error")
    some { type := "error" }
  else none

/-! ## Streaming subprocess loop
(app/services/codex_executor.py, CodexExecutor.execute_streaming, and
app/services/opencode_executor.py, OpenCodeExecutor.execute_streaming)

Both adapters share the same control flow: read stdout line by line, strip
each line, skip empty ones, parse the rest (yielding an event when parsing
succeeds, silently skipping the line otherwise), and only after stdout is
drained wait for the process and raise
`RuntimeError(failPrefix + stderr)` when the exit code is non-zero.  The
subprocess is modelled by its observable behaviour — the list of stdout
lines, the exit code, and the captured stderr text — and a generator run is
the list of its yields (`Sum.inl` an event) followed, for a failing process,
by the raised error (`Sum.inr` its message).  The two adapters differ only
in the line parser (`json.loads` + event construction vs. `json.loads` +
`_map_opencode_event`) and the message text, so both are parameters. -/

/-- The trace of one `execute_streaming` run: every yielded event in order,
then — only after all lines are consumed — the raised error, if any. -/
def execStreamingTrace (parseLine : String → Option CodexJsonEvent) (failPrefix : String) :
    List String → Int → String → List (CodexJsonEvent ⊕ String)
  | [], returncode, stderr =>
    if returncode ≠ 0 then [Sum.inr (failPrefix ++ stderr)] else []
  | line :: rest, returncode, stderr =>
    let line_str := pyStrip line
    if line_str = "" then execStreamingTrace parseLine failPrefix rest returncode stderr
    else
      match parseLine line_str with
      | some e => Sum.inl e :: execStreamingTrace parseLine failPrefix rest returncode stderr
      | none => execStreamingTrace parseLine failPrefix rest returncode stderr

/-- The events alone that a run over `lines` yields (stripped, non-empty,
successfully parsed lines, in order). -/
def streamedEvents (parseLine : String → Option CodexJsonEvent) (lines : List String) :
    List CodexJsonEvent :=
  lines.filterMap (fun l =>
    let s := pyStrip l
    if s = "" then none else parseLine s)

/-! ## Claims

One theorem per claim of the specification review, in claim order, with the
supporting lemmas they need placed just before them.
-/

/-- Claim C8: the backend selector is total — every model string (the empty
string and unrecognised provider prefixes included) yields one of the two
adapters and never fails — and it routes exactly the `opencode-local` alias
and the recognised provider prefixes (`anthropic/`, `openai/`, `opencode/`)
to the OpenCode adapter, every other string to the default Codex adapter. -/
theorem getExecutor_total_and_routing (model : String) :
    (getExecutor model = ExecutorKind.opencode ∨ getExecutor model = ExecutorKind.codex) ∧
    (getExecutor model = ExecutorKind.opencode ↔
      (model = "opencode-local" ∨ pyStartsWith model "anthropic/" = true ∨
       pyStartsWith model "openai/" = true ∨ pyStartsWith model "opencode/" = true)) := by
  by_cases h : model = "opencode-local" ∨ pyStartsWith model "anthropic/" = true ∨
      pyStartsWith model "openai/" = true ∨ pyStartsWith model "opencode/" = true
  · simp [getExecutor, h]
  · simp [getExecutor, h]

/-- Claim C7: with tool extraction disabled, non-streaming assembly passes
the aggregate content through unchanged with finish reason `"stop"` (whatever
call-shaped JSON the content holds), and — enabled or not — the reported
usage is copied from the aggregate result with
`total_tokens = input_tokens + output_tokens`. -/
theorem createNonStreamingResponse_disabled_passthrough (resp : CodexResponse)
    (toolsEnabled : Bool) (idGen : Nat → String) (chatId : String) (created : Int) :
    (createNonStreamingResponse resp false idGen chatId created).choices =
      [{ index := 0,
         message := { role := "assistant", content := some resp.content, tool_calls := none },
         finish_reason := "stop" }] ∧
    (createNonStreamingResponse resp toolsEnabled idGen chatId created).usage =
      { prompt_tokens := resp.usage.input_tokens,
        completion_tokens := resp.usage.output_tokens,
        total_tokens := resp.usage.input_tokens + resp.usage.output_tokens } := by
  constructor
  · rfl
  · cases toolsEnabled <;> rfl

/-- Claim C1 (code bug): an in-band `"error"` event — exactly what
`_map_opencode_event` produces for an OpenCode error record (whose message
pydantic already drops, `CodexJsonEvent` having no `error` field) — is
silently ignored by the streaming assembler: the stream it produces is
identical to the stream for no events at all, ending in a normal `"stop"`
finish chunk and the `[DONE]` sentinel instead of surfacing a failure. -/
theorem streaming_error_event_silently_dropped :
    mapOpencodeEvent
        { type := some "error",
          error := some { name := some "ProviderError",
                          data := some { message := some "boom" } } } =
      some { type := "error" } ∧
    createStreamingResponse [{ type := "error" }] false "chatcmpl-test" 0 =
      createStreamingResponse [] false "chatcmpl-test" 0 ∧
    createStreamingResponse [{ type := "error" }] false "chatcmpl-test" 0 =
      [SSEFrame.data (finalChunk "chatcmpl-test" 0 "stop"), SSEFrame.done] :=
  ⟨rfl, rfl, rfl⟩

/-- Claim C5: on `ok {"name": "f", "arguments": {"a": 1}} done` the extractor
finds exactly one call, named `f` with arguments `{"a": 1}`, and the leftover
text keeps `ok` and `done` but no longer holds the matched JSON substring. -/
theorem extractToolCalls_example :
    ((extractToolCallsFromText (fun _ => "call_test")
        "ok \x7b\"name\": \"f\", \"arguments\": \x7b\"a\": 1\x7d\x7d done").1.getD []).map
        (fun tc => (tc.function.name, tc.function.arguments)) =
      [("f", "\x7b\"a\": 1\x7d")] ∧
    (extractToolCallsFromText (fun _ => "call_test")
        "ok \x7b\"name\": \"f\", \"arguments\": \x7b\"a\": 1\x7d\x7d done").2 =
      some "ok  done" ∧
    "ok".toList <:+: "ok  done".toList ∧
    "done".toList <:+: "ok  done".toList ∧
    ¬ ("\x7b\"name\": \"f\", \"arguments\": \x7b\"a\": 1\x7d\x7d".toList <:+:
        "ok  done".toList) := by
  refine ⟨by decide, by decide, by decide, by decide, by decide⟩

/-- Shape of every run of the streaming event loop, whatever state it starts
in: some all-`finish_reason = none` body chunks, then exactly one finish
chunk, then exactly one sentinel, nothing after. -/
theorem streamLoop_shape (cid : String) (cr : Int) (te : Bool) :
    ∀ (es : List CodexJsonEvent) (first hasTc : Bool),
      ∃ (body : List ChatCompletionStreamResponse) (reason : String),
        streamLoop cid cr te es first hasTc =
          body.map SSEFrame.data ++ [SSEFrame.data (finalChunk cid cr reason), SSEFrame.done] ∧
        (∀ c ∈ body, ∀ ch ∈ c.choices, ch.finish_reason = none) ∧
        (reason = "stop" ∨ reason = "tool_calls") := by
  intro es
  induction es with
  | nil =>
    intro first hasTc
    refine ⟨[], if hasTc then "tool_calls" else "stop", rfl, by simp, by
      cases hasTc <;> simp⟩
  | cons e es ih =>
    intro first hasTc
    by_cases ht : e.type = "item.completed"
    · cases hitem : e.item with
      | none =>
        obtain ⟨body, reason, heq, hnone, hr⟩ := ih first hasTc
        have hstep : streamLoop cid cr te (e :: es) first hasTc =
            streamLoop cid cr te es first hasTc := by
          simp [streamLoop, ht, hitem]
        exact ⟨body, reason, by rw [hstep]; exact heq, hnone, hr⟩
      | some item =>
        by_cases hfc : item.type = some "function_call" ∧ te = true
        · obtain ⟨hfty, hte⟩ := hfc
          subst hte
          cases hefc : e.extract_function_call with
          | some fc =>
            obtain ⟨body, reason, heq, hnone, hr⟩ := ih false true
            have hstep : streamLoop cid cr true (e :: es) first hasTc =
                SSEFrame.data (toolCallChunk cid cr first fc) ::
                  streamLoop cid cr true es false true := by
              simp [streamLoop, ht, hitem, hfty, hefc]
            refine ⟨toolCallChunk cid cr first fc :: body, reason, ?_, ?_, hr⟩
            · rw [hstep, heq]; rfl
            · intro c hc ch hch
              rcases List.mem_cons.mp hc with hc1 | hc2
              · subst hc1
                simp only [toolCallChunk, List.mem_singleton] at hch
                subst hch
                rfl
              · exact hnone c hc2 ch hch
          | none =>
            obtain ⟨body, reason, heq, hnone, hr⟩ := ih first hasTc
            have hstep : streamLoop cid cr true (e :: es) first hasTc =
                streamLoop cid cr true es first hasTc := by
              simp [streamLoop, ht, hitem, hfty, hefc]
            exact ⟨body, reason, by rw [hstep]; exact heq, hnone, hr⟩
        · by_cases ham : item.type = some "agent_message"
          · obtain ⟨body, reason, heq, hnone, hr⟩ := ih false hasTc
            have hstep : streamLoop cid cr te (e :: es) first hasTc =
                SSEFrame.data (agentMessageChunk cid cr first (item.text.getD "")) ::
                  streamLoop cid cr te es false hasTc := by
              simp [streamLoop, ht, hitem, ham, hfc]
            refine ⟨agentMessageChunk cid cr first (item.text.getD "") :: body, reason,
              ?_, ?_, hr⟩
            · rw [hstep, heq]; rfl
            · intro c hc ch hch
              rcases List.mem_cons.mp hc with hc1 | hc2
              · subst hc1
                simp only [agentMessageChunk, List.mem_singleton] at hch
                subst hch
                rfl
              · exact hnone c hc2 ch hch
          · obtain ⟨body, reason, heq, hnone, hr⟩ := ih first hasTc
            have hstep : streamLoop cid cr te (e :: es) first hasTc =
                streamLoop cid cr te es first hasTc := by
              simp [streamLoop, ht, hitem, ham, hfc]
            exact ⟨body, reason, by rw [hstep]; exact heq, hnone, hr⟩
    · obtain ⟨body, reason, heq, hnone, hr⟩ := ih first hasTc
      have hstep : streamLoop cid cr te (e :: es) first hasTc =
          streamLoop cid cr te es first hasTc := by
        simp [streamLoop, ht]
      exact ⟨body, reason, by rw [hstep]; exact heq, hnone, hr⟩

/-- Claim C2: for every input event sequence (the empty one included) the
streaming assembler emits some chunks with null `finish_reason`, then exactly
one terminal chunk whose `finish_reason` is non-null, then exactly one
`[DONE]` sentinel frame, and nothing after the sentinel. -/
theorem streaming_terminal_chunk_and_sentinel (events : List CodexJsonEvent)
    (toolsEnabled : Bool) (chatId : String) (created : Int) :
    ∃ (body : List ChatCompletionStreamResponse) (reason : String),
      createStreamingResponse events toolsEnabled chatId created =
        body.map SSEFrame.data ++
          [SSEFrame.data (finalChunk chatId created reason), SSEFrame.done] ∧
      (∀ c ∈ body, ∀ ch ∈ c.choices, ch.finish_reason = none) ∧
      (∀ ch ∈ (finalChunk chatId created reason).choices, ch.finish_reason = some reason) ∧
      (reason = "stop" ∨ reason = "tool_calls") := by
  obtain ⟨body, reason, heq, hnone, hr⟩ := streamLoop_shape chatId created toolsEnabled events true false
  exact ⟨body, reason, heq, hnone, by intro ch hch; simp [finalChunk] at hch; simp [hch], hr⟩

/-- The content texts carried by a frame sequence, in order: for each data
chunk, the `delta.content` of its (single) choice, when present. -/
def frameContents (frames : List SSEFrame) : List String :=
  frames.filterMap (fun f =>
    match f with
    | SSEFrame.data c => (c.choices.head?).bind (fun ch => ch.delta.content)
    | SSEFrame.done => none)

/-- The `agent_message` texts of an event sequence, in source order: the
`item.get("text", "")` of every `item.completed` event whose item is an
`agent_message`. -/
def agentMessageTexts (events : List CodexJsonEvent) : List String :=
  events.filterMap (fun e =>
    if e.type = "item.completed" then
      e.item.bind (fun it =>
        if it.type = some "agent_message" then some (it.text.getD "") else none)
    else none)

/-- The content of every run of the streaming loop is exactly the
`agent_message` texts of its events, in order, whatever state it starts
in. -/
theorem streamLoop_contents (cid : String) (cr : Int) (te : Bool) :
    ∀ (es : List CodexJsonEvent) (first hasTc : Bool),
      frameContents (streamLoop cid cr te es first hasTc) = agentMessageTexts es := by
  intro es
  induction es with
  | nil =>
    intro first hasTc
    cases hasTc <;> rfl
  | cons e es ih =>
    intro first hasTc
    by_cases ht : e.type = "item.completed"
    · cases hitem : e.item with
      | none =>
        have hstep : streamLoop cid cr te (e :: es) first hasTc =
            streamLoop cid cr te es first hasTc := by
          simp [streamLoop, ht, hitem]
        rw [hstep, ih first hasTc]
        simp [agentMessageTexts, ht, hitem]
      | some item =>
        by_cases hfc : item.type = some "function_call" ∧ te = true
        · obtain ⟨hfty, hte⟩ := hfc
          subst hte
          cases hefc : e.extract_function_call with
          | some fc =>
            have hstep : streamLoop cid cr true (e :: es) first hasTc =
                SSEFrame.data (toolCallChunk cid cr first fc) ::
                  streamLoop cid cr true es false true := by
              simp [streamLoop, ht, hitem, hfty, hefc]
            rw [hstep, frameContents, List.filterMap_cons]
            have hnone : ((toolCallChunk cid cr first fc).choices.head?).bind
                (fun ch => ch.delta.content) = none := by
              cases first <;> rfl
            rw [show (match SSEFrame.data (toolCallChunk cid cr first fc) with
                | SSEFrame.data c => (c.choices.head?).bind (fun ch => ch.delta.content)
                | SSEFrame.done => none) =
              ((toolCallChunk cid cr first fc).choices.head?).bind
                (fun ch => ch.delta.content) from rfl, hnone]
            rw [show List.filterMap _ (streamLoop cid cr true es false true) =
              frameContents (streamLoop cid cr true es false true) from rfl]
            rw [ih false true]
            simp [agentMessageTexts, ht, hitem, hfty]
          | none =>
            have hstep : streamLoop cid cr true (e :: es) first hasTc =
                streamLoop cid cr true es first hasTc := by
              simp [streamLoop, ht, hitem, hfty, hefc]
            rw [hstep, ih first hasTc]
            -- the event contributes no text: its item is a `function_call`
            simp [agentMessageTexts, ht, hitem, hfty]
        · by_cases ham : item.type = some "agent_message"
          · have hstep : streamLoop cid cr te (e :: es) first hasTc =
                SSEFrame.data (agentMessageChunk cid cr first (item.text.getD "")) ::
                  streamLoop cid cr te es false hasTc := by
              simp [streamLoop, ht, hitem, ham, hfc]
            rw [hstep, frameContents, List.filterMap_cons]
            have hsome : (match SSEFrame.data (agentMessageChunk cid cr first (item.text.getD ""))
                  with
                | SSEFrame.data c => (c.choices.head?).bind (fun ch => ch.delta.content)
                | SSEFrame.done => none) = some (item.text.getD "") := by
              cases first <;> rfl
            rw [hsome]
            rw [show List.filterMap _ (streamLoop cid cr te es false hasTc) =
              frameContents (streamLoop cid cr te es false hasTc) from rfl]
            rw [ih false hasTc]
            simp [agentMessageTexts, ht, hitem, ham]
          · have hstep : streamLoop cid cr te (e :: es) first hasTc =
                streamLoop cid cr te es first hasTc := by
              simp [streamLoop, ht, hitem, ham, hfc]
            rw [hstep, ih first hasTc]
            simp [agentMessageTexts, ht, hitem, ham]
    · have hstep : streamLoop cid cr te (e :: es) first hasTc =
          streamLoop cid cr te es first hasTc := by
        simp [streamLoop, ht]
      rw [hstep, ih first hasTc]
      simp [agentMessageTexts, ht]

/-- Claim C9: the streaming assembler emits the content chunks derived from
message items in the same relative order as their source records, and only
`agent_message` text ever becomes protocol content — reasoning-only records
never produce a content chunk. -/
theorem streaming_content_order_and_reasoning (events : List CodexJsonEvent)
    (toolsEnabled : Bool) (chatId : String) (created : Int) :
    frameContents (createStreamingResponse events toolsEnabled chatId created) =
      agentMessageTexts events :=
  streamLoop_contents chatId created toolsEnabled events true false

/-- Claim C6: whenever the backend subprocess exits non-zero, a streaming run
is exactly the events parsed from the stdout lines, every one of them, in
order, followed by one raised failure carrying the captured stderr text — the
failure comes only after the last yielded event, and nothing follows it.
Both adapters instantiate `parseLine` (their line parser) and `failPrefix`
(`"Codex execution failed: "` / `"OpenCode execution failed: "`). -/
theorem execStreamingTrace_nonzero_exit (parseLine : String → Option CodexJsonEvent)
    (failPrefix : String) (lines : List String) (returncode : Int) (stderr : String)
    (h : returncode ≠ 0) :
    execStreamingTrace parseLine failPrefix lines returncode stderr =
      (streamedEvents parseLine lines).map Sum.inl ++
        [Sum.inr (failPrefix ++ stderr)] := by
  induction lines with
  | nil => simp [execStreamingTrace, streamedEvents, h]
  | cons l ls ih =>
    by_cases hempty : pyStrip l = ""
    · simp only [execStreamingTrace, streamedEvents, List.filterMap_cons, hempty, if_pos,
        if_true]
      simpa [streamedEvents, hempty] using ih
    · cases hp : parseLine (pyStrip l) with
      | some e =>
        simp only [execStreamingTrace, streamedEvents, List.filterMap_cons, hempty]
        simpa [streamedEvents, hempty, hp] using ih
      | none =>
        simp only [execStreamingTrace, streamedEvents, List.filterMap_cons, hempty]
        simpa [streamedEvents, hempty, hp] using ih

/-- Witness for C6 at a concrete run: two stdout lines (one blank), exit code
1, stderr `boom`. -/
theorem execStreamingTrace_nonzero_exit_witness :
    execStreamingTrace (fun s => some { type := s }) "Codex execution failed: "
        ["ev", "", "x"] 1 "boom" =
      (streamedEvents (fun s => some { type := s }) ["ev", "", "x"]).map Sum.inl ++
        [Sum.inr ("Codex execution failed: " ++ "boom")] :=
  execStreamingTrace_nonzero_exit (fun s => some { type := s })
    "Codex execution failed: " ["ev", "", "x"] 1 "boom" (by decide)

/-- The token count read by the transcript scan is independent of the scan
state and comes from the line after the first `tokens used` marker. -/
theorem parseLoop_tokens (m nxt : String) (post : List String)
    (hm : pyStrip m = "tokens used") :
    ∀ (pre : List String) (inR : Bool) (acc : List String),
      (∀ l ∈ pre, pyStrip l ≠ "tokens used") →
      (parseLoop (pre ++ m :: nxt :: post) inR acc).2 =
        (pyInt (removeCommas (pyStrip nxt))).getD 0 := by
  intro pre
  induction pre with
  | nil =>
    intro inR acc _
    cases hp : pyInt (removeCommas (pyStrip nxt)) <;>
      simp [parseLoop, hm, hp]
  | cons l pre ih =>
    intro inR acc hpre
    have hl : pyStrip l ≠ "tokens used" := hpre l (List.mem_cons_self l pre)
    have hpre' : ∀ x ∈ pre, pyStrip x ≠ "tokens used" :=
      fun x hx => hpre x (List.mem_cons_of_mem l hx)
    by_cases hc : pyStrip l = "codex"
    · simpa [parseLoop, hc] using ih true acc hpre'
    · cases inR <;> simpa [parseLoop, hc, hl] using ih _ _ hpre'

/-- The token count is 0 when no line of the transcript is a `tokens used`
marker. -/
theorem parseLoop_no_marker :
    ∀ (lines : List String) (inR : Bool) (acc : List String),
      (∀ l ∈ lines, pyStrip l ≠ "tokens used") →
      (parseLoop lines inR acc).2 = 0 := by
  intro lines
  induction lines with
  | nil => intro inR acc _; rfl
  | cons l ls ih =>
    intro inR acc hno
    have hl : pyStrip l ≠ "tokens used" := hno l (List.mem_cons_self l ls)
    have hno' : ∀ x ∈ ls, pyStrip x ≠ "tokens used" :=
      fun x hx => hno x (List.mem_cons_of_mem l hx)
    by_cases hc : pyStrip l = "codex"
    · simpa [parseLoop, hc] using ih true acc hno'
    · cases inR <;> simpa [parseLoop, hc, hl] using ih _ _ hno'

/-- Claim C3: a transcript whose first `tokens used` marker is followed by
the value `12,345` parses to a combined token count of 12345 (thousands
separator stripped) split by the fixed 80/20 heuristic into 9876 input and
2469 output tokens. -/
theorem parse_comma_separated_tokens (pre : List String) (m nxt : String)
    (post : List String)
    (hpre : ∀ l ∈ pre, pyStrip l ≠ "tokens used")
    (hm : pyStrip m = "tokens used")
    (hnxt : pyStrip nxt = "12,345") :
    (parseLoop (pre ++ m :: nxt :: post) false []).2 = 12345 ∧
    (parseStandardOutputLines (pre ++ m :: nxt :: post)).usage =
      { input_tokens := 9876, cached_input_tokens := 0, output_tokens := 2469 } := by
  have ht : (parseLoop (pre ++ m :: nxt :: post) false []).2 = 12345 := by
    rw [parseLoop_tokens m nxt post hm pre false [] hpre, hnxt]
    decide
  refine ⟨ht, ?_⟩
  simp only [parseStandardOutputLines, ht]
  decide

/-- Witness for C3 at a concrete transcript. -/
theorem parse_comma_separated_tokens_witness :
    (parseLoop (["--------", "user", "hello", "codex", "hi there"] ++
        "tokens used" :: "12,345" :: []) false []).2 = 12345 ∧
    (parseStandardOutputLines (["--------", "user", "hello", "codex", "hi there"] ++
        "tokens used" :: "12,345" :: [])).usage =
      { input_tokens := 9876, cached_input_tokens := 0, output_tokens := 2469 } :=
  parse_comma_separated_tokens ["--------", "user", "hello", "codex", "hi there"]
    "tokens used" "12,345" [] (by decide) (by decide) (by decide)

/-- Claim C10: when the `tokens used` marker is absent, or the line after the
first marker fails to parse as an integer once commas are stripped, the
transcript parser does not fail: it returns usage of 0 input and 0 output
tokens. -/
theorem parse_missing_or_bad_tokens_zero_usage (lines : List String)
    (h : (∀ l ∈ lines, pyStrip l ≠ "tokens used") ∨
      (∃ (pre : List String) (m nxt : String) (post : List String),
        lines = pre ++ m :: nxt :: post ∧
        (∀ l ∈ pre, pyStrip l ≠ "tokens used") ∧
        pyStrip m = "tokens used" ∧
        pyInt (removeCommas (pyStrip nxt)) = none)) :
    (parseStandardOutputLines lines).usage =
      { input_tokens := 0, cached_input_tokens := 0, output_tokens := 0 } := by
  have ht : (parseLoop lines false []).2 = 0 := by
    rcases h with hno | ⟨pre, m, nxt, post, hsplit, hpre, hm, hbad⟩
    · exact parseLoop_no_marker lines false [] hno
    · rw [hsplit, parseLoop_tokens m nxt post hm pre false [] hpre, hbad]
      rfl
  simp only [parseStandardOutputLines, ht]
  rfl

/-- Witness for C10: a transcript with no marker at all, and one whose
marker is followed by a non-numeric line. -/
theorem parse_missing_or_bad_tokens_zero_usage_witness :
    (parseStandardOutputLines ["codex", "hello there"]).usage =
      { input_tokens := 0, cached_input_tokens := 0, output_tokens := 0 } :=
  parse_missing_or_bad_tokens_zero_usage ["codex", "hello there"]
    (Or.inl (by decide))

/-- Does the text start with two newlines? (helper observation for newline
runs). -/
def startsTwoNl : List Char → Bool
  | a :: b :: _ => a == '\n' && b == '\n'
  | _ => false

/-- Does the text contain three consecutive newlines anywhere? -/
def hasNlRun3 : List Char → Bool
  | [] => false
  | c :: rest => ((c == '\n') && startsTwoNl rest) || hasNlRun3 rest

/-- Three consecutive newlines as an infix are found by `hasNlRun3`. -/
theorem hasNlRun3_of_infix {l : List Char} (h : ['\n', '\n', '\n'] <:+: l) :
    hasNlRun3 l = true := by
  obtain ⟨s, t, rfl⟩ := h
  induction s with
  | nil => simp [hasNlRun3, startsTwoNl]
  | cons a s ih =>
    simp only [List.cons_append, hasNlRun3, Bool.or_eq_true, Bool.and_eq_true]
    exact Or.inr (by simpa using ih)

/-- The first element surviving `dropWhile` fails the predicate. -/
theorem head_dropWhile_not {p : Char → Bool} :
    ∀ {l : List Char} {c : Char}, (l.dropWhile p).head? = some c → p c = false := by
  intro l
  induction l with
  | nil => intro c h; simp [List.dropWhile] at h
  | cons d l ih =>
    intro c h
    by_cases hd : p d
    · exact ih (by simpa [List.dropWhile, hd] using h)
    · simp only [List.dropWhile, hd, Bool.false_eq_true, if_false] at h
      simp only [List.head?_cons, Option.some.injEq] at h
      rw [← h]
      simpa using hd

/-- `takeWhile`/`dropWhile` across an append whose left part wholly satisfies
the predicate and whose right part starts by failing it. -/
theorem takeWhile_dropWhile_append {p : Char → Bool} :
    ∀ (a b : List Char), (∀ c ∈ a, p c = true) →
      (∀ c, b.head? = some c → p c = false) →
      (a ++ b).takeWhile p = a ∧ (a ++ b).dropWhile p = b := by
  intro a
  induction a with
  | nil =>
    intro b _ hb
    cases b with
    | nil => simp
    | cons d b' =>
      have hd : p d = false := hb d rfl
      simp [List.takeWhile, List.dropWhile, hd]
  | cons c a ih =>
    intro b ha hb
    have hc : p c = true := ha c (List.mem_cons_self c a)
    have ha' : ∀ x ∈ a, p x = true := fun x hx => ha x (List.mem_cons_of_mem c hx)
    obtain ⟨ht, hd⟩ := ih b ha' hb
    simp [List.takeWhile, List.dropWhile, hc, ht, hd]

/-- A successful match decomposes its input into the matched substring and
the rest. -/
theorem matchCallAt_whole {s nm args rest : List Char}
    (h : matchCallAt s = some (nm, args, rest)) :
    s.take (s.length - rest.length) ++ rest = s := by
  obtain ⟨p, hp⟩ := (matchCallAt_suffix h).1
  have hlen : s.length - rest.length = p.length := by
    rw [← hp]
    simp
  rw [hlen, ← hp, List.take_left]

/-- The scan decomposition is faithful: gaps, matched substrings and the
final tail concatenate back to the input. -/
theorem scanFromF_reconstruct :
    ∀ (fuel : Nat) (s : List Char), s.length ≤ fuel →
      ((scanFromF fuel s).1.map (fun q => q.1 ++ q.2.whole)).flatten ++
        (scanFromF fuel s).2 = s := by
  intro fuel
  induction fuel with
  | zero => intro s _; simp [scanFromF]
  | succ fuel ih =>
    intro s hs
    cases hm : matchCallAt s with
    | some v =>
      obtain ⟨nm, args, rest⟩ := v
      have hlt := (matchCallAt_suffix hm).2
      have hrest : rest.length ≤ fuel := by omega
      simp only [scanFromF, hm, List.map_cons, List.flatten_cons, List.nil_append,
        List.append_assoc]
      rw [ih rest hrest, matchCallAt_whole hm]
    | none =>
      cases s with
      | nil => simp [scanFromF, hm]
      | cons c cs =>
        have hcs : cs.length ≤ fuel := by
          simp only [List.length_cons] at hs; omega
        have hrec := ih cs hcs
        cases hsc : (scanFromF fuel cs).1 with
        | nil =>
          simp only [scanFromF, hm, hsc]
          simp only [hsc, List.map_nil, List.flatten_nil, List.nil_append] at hrec
          simp [hrec]
        | cons gm ps =>
          obtain ⟨g, m⟩ := gm
          simp only [scanFromF, hm, hsc]
          simp only [hsc, List.map_cons, List.flatten_cons, List.append_assoc] at hrec ⊢
          simp only [List.cons_append]
          rw [hrec]

/-- `collapseNlF` is fuel-irrelevant once the fuel covers the length: it
computes `collapseNl`. -/
theorem collapseNlF_eq :
    ∀ (fuel : Nat) (l : List Char), l.length ≤ fuel → collapseNlF fuel l = collapseNl l := by
  intro fuel
  induction fuel using Nat.strong_induction_on with
  | _ fuel ih =>
    intro l hl
    cases fuel with
    | zero =>
      have : l = [] := List.eq_nil_of_length_eq_zero (Nat.le_zero.mp hl)
      subst this
      rfl
    | succ f =>
      cases l with
      | nil => rfl
      | cons c cs =>
        have hcs : cs.length ≤ f := by
          simp only [List.length_cons] at hl; omega
        by_cases hc : c = '\n'
        · subst hc
          have htail : (cs.dropWhile (fun x => x == '\n')).length ≤ cs.length :=
            (List.dropWhile_suffix _).length_le
          simp only [collapseNlF, collapseNl, List.length_cons, if_pos]
          rw [ih f (Nat.lt_succ_self f) _ (le_trans htail hcs),
            ih cs.length (Nat.lt_succ_of_le hcs) _ htail]
        · simp only [collapseNlF, collapseNl, List.length_cons, hc, if_false]
          rw [ih f (Nat.lt_succ_self f) cs hcs, ih cs.length (Nat.lt_succ_of_le hcs) cs le_rfl]

/-- Unfolding `collapseNl` at a non-newline head. -/
theorem collapseNl_cons_ne {c : Char} (hc : ¬ c = '\n') (cs : List Char) :
    collapseNl (c :: cs) = c :: collapseNl cs := by
  simp only [collapseNl, List.length_cons, collapseNlF, hc, if_false]

/-- Unfolding `collapseNl` at a newline: the whole maximal run is consumed,
becoming two newlines when it has three or more, and is kept otherwise. -/
theorem collapseNl_cons_nl (cs : List Char) :
    collapseNl ('\n' :: cs) =
      (if 3 ≤ (cs.takeWhile (fun x => x == '\n')).length + 1 then ['\n', '\n']
       else List.replicate ((cs.takeWhile (fun x => x == '\n')).length + 1) '\n') ++
        collapseNl (cs.dropWhile (fun x => x == '\n')) := by
  simp only [collapseNl, List.length_cons, collapseNlF, if_pos]
  rw [collapseNlF_eq cs.length _ (List.dropWhile_suffix _).length_le]
  rfl

/-- `collapseNl` keeps a non-empty text non-empty. -/
theorem collapseNl_ne_nil {l : List Char} (h : l ≠ []) : collapseNl l ≠ [] := by
  cases l with
  | nil => exact absurd rfl h
  | cons c cs =>
    by_cases hc : c = '\n'
    · subst hc
      rw [collapseNl_cons_nl]
      split
      · simp
      · simp
    · rw [collapseNl_cons_ne hc]
      simp

/-- `collapseNl` keeps the first character. -/
theorem collapseNl_head (l : List Char) : (collapseNl l).head? = l.head? := by
  cases l with
  | nil => rfl
  | cons c cs =>
    by_cases hc : c = '\n'
    · subst hc
      rw [collapseNl_cons_nl]
      split
      · rfl
      · simp [List.replicate_succ]
    · rw [collapseNl_cons_ne hc]
      rfl

/-- Text that does not start with a newline never starts two newlines. -/
theorem startsTwoNl_of_head {X : List Char}
    (hXhead : ∀ c, X.head? = some c → ¬ c = '\n') :
    startsTwoNl X = false := by
  cases X with
  | nil => rfl
  | cons d X' =>
    have hd : ¬ d = '\n' := hXhead d rfl
    cases X' with
    | nil => rfl
    | cons e X'' => simp [startsTwoNl, hd]

/-- A newline followed by text that does not itself start with a newline
never starts two newlines. -/
theorem startsTwoNl_nl_cons {X : List Char}
    (hXhead : ∀ c, X.head? = some c → ¬ c = '\n') :
    startsTwoNl ('\n' :: X) = false := by
  cases X with
  | nil => rfl
  | cons d X' =>
    have hd : ¬ d = '\n' := hXhead d rfl
    simp [startsTwoNl, hd]

/-- Prepending one newline to triple-free text whose head is not a newline
keeps it triple-free. -/
theorem hasNlRun3_nl_cons {X : List Char}
    (hXhead : ∀ c, X.head? = some c → ¬ c = '\n') (hX : hasNlRun3 X = false) :
    hasNlRun3 ('\n' :: X) = false := by
  simp only [hasNlRun3, Bool.or_eq_false_iff, Bool.and_eq_false_iff]
  exact ⟨Or.inr (startsTwoNl_of_head hXhead), hX⟩

/-- Prepending two newlines likewise. -/
theorem hasNlRun3_nl_nl_cons {X : List Char}
    (hXhead : ∀ c, X.head? = some c → ¬ c = '\n') (hX : hasNlRun3 X = false) :
    hasNlRun3 ('\n' :: '\n' :: X) = false := by
  have h1 : hasNlRun3 ('\n' :: X) = false := hasNlRun3_nl_cons hXhead hX
  simp only [hasNlRun3, Bool.or_eq_false_iff, Bool.and_eq_false_iff]
  refine ⟨Or.inr ?_, by simpa [hasNlRun3] using h1⟩
  cases X with
  | nil => rfl
  | cons d X' =>
    have hd : ¬ d = '\n' := hXhead d rfl
    simp [startsTwoNl, hd]

/-- The output of the newline collapse never holds three consecutive
newlines. -/
theorem hasNlRun3_collapseNl (l : List Char) : hasNlRun3 (collapseNl l) = false := by
  suffices h : ∀ (fuel : Nat) (l : List Char), l.length ≤ fuel →
      hasNlRun3 (collapseNl l) = false from h l.length l le_rfl
  intro fuel
  induction fuel using Nat.strong_induction_on with
  | _ fuel ih =>
    intro l hl
    cases fuel with
    | zero =>
      have : l = [] := List.eq_nil_of_length_eq_zero (Nat.le_zero.mp hl)
      subst this
      rfl
    | succ f =>
      cases l with
      | nil => rfl
      | cons c cs =>
        have hcs : cs.length ≤ f := by
          simp only [List.length_cons] at hl; omega
        by_cases hc : c = '\n'
        · subst hc
          rw [collapseNl_cons_nl]
          set tail := cs.dropWhile (fun x => x == '\n') with htail
          have htl : tail.length ≤ f :=
            le_trans (List.dropWhile_suffix _).length_le hcs
          have hX : hasNlRun3 (collapseNl tail) = false := ih f (Nat.lt_succ_self f) tail htl
          have hXhead : ∀ d, (collapseNl tail).head? = some d → ¬ d = '\n' := by
            intro d hd
            rw [collapseNl_head] at hd
            have := head_dropWhile_not (p := fun x => x == '\n') (htail ▸ hd)
            simpa using this
          split
          · exact hasNlRun3_nl_nl_cons hXhead hX
          · next hn =>
            have : (cs.takeWhile (fun x => x == '\n')).length + 1 = 1 ∨
                (cs.takeWhile (fun x => x == '\n')).length + 1 = 2 := by omega
            rcases this with h1 | h2
            · rw [h1]
              simpa [List.replicate_succ] using hasNlRun3_nl_cons hXhead hX
            · rw [h2]
              simpa [List.replicate_succ] using hasNlRun3_nl_nl_cons hXhead hX
        · rw [collapseNl_cons_ne hc]
          have hX : hasNlRun3 (collapseNl cs) = false := ih f (Nat.lt_succ_self f) cs hcs
          simp [hasNlRun3, hX, hc]

/-- Any maximal run of three or more newlines — `x` ends with something else
(or is empty), `y` starts with something else (or is empty) — is collapsed to
exactly one blank line (two newlines), while the surrounding text is
collapsed independently. -/
theorem collapseNl_decomp :
    ∀ (x y : List Char) (k : Nat), 3 ≤ k → x.getLast? ≠ some '\n' →
      y.head? ≠ some '\n' →
      collapseNl (x ++ List.replicate k '\n' ++ y) =
        collapseNl x ++ '\n' :: '\n' :: collapseNl y := by
  suffices h : ∀ (n : Nat) (x y : List Char) (k : Nat), x.length ≤ n → 3 ≤ k →
      x.getLast? ≠ some '\n' → y.head? ≠ some '\n' →
      collapseNl (x ++ List.replicate k '\n' ++ y) =
        collapseNl x ++ '\n' :: '\n' :: collapseNl y from
    fun x y k h3 hx hy => h x.length x y k le_rfl h3 hx hy
  intro n
  induction n using Nat.strong_induction_on with
  | _ n ih =>
    intro x y k hn h3 hx hy
    have hyb : ∀ c, y.head? = some c → (c == '\n') = false := by
      intro c hc
      by_cases hcn : c = '\n'
      · exact absurd (hcn ▸ hc) hy
      · simpa using hcn
    cases x with
    | nil =>
      obtain ⟨k', rfl⟩ : ∃ k', k = k' + 1 := ⟨k - 1, by omega⟩
      have hrepl : ∀ c ∈ List.replicate k' '\n', (c == '\n') = true := by
        intro c hc
        have := List.eq_of_mem_replicate hc
        simpa using this
      obtain ⟨htw, hdw⟩ := takeWhile_dropWhile_append (List.replicate k' '\n') y hrepl hyb
      simp only [List.nil_append, List.replicate_succ, List.cons_append]
      rw [collapseNl_cons_nl, htw, hdw]
      have hk : 3 ≤ (List.replicate k' '\n').length + 1 := by
        simp only [List.length_replicate]; omega
      rw [if_pos hk]
      rfl
    | cons c x' =>
      have hx'len : x'.length < n := by
        simp only [List.length_cons] at hn; omega
      by_cases hc : c = '\n'
      · subst hc
        have hx'ne : x' ≠ [] := by
          intro hnil
          subst hnil
          simp at hx
        have hxlast : x'.getLast? ≠ some '\n' := by
          have heq : ('\n' :: x').getLast? = x'.getLast? := by
            rw [← List.singleton_append]
            exact List.getLast?_append_of_ne_nil _ hx'ne
          rwa [heq] at hx
        have hdne : x'.dropWhile (fun z => z == '\n') ≠ [] := by
          intro hdnil
          have hall : ∀ z ∈ x', (z == '\n') = true := List.dropWhile_eq_nil_iff.mp hdnil
          have hmem : x'.getLast hx'ne ∈ x' := List.getLast_mem hx'ne
          have hlastnl : (x'.getLast hx'ne == '\n') = true := hall _ hmem
          apply hxlast
          rw [List.getLast?_eq_getLast x' hx'ne]
          simpa using hlastnl
        have hdb : ∀ c, (x'.dropWhile (fun z => z == '\n')).head? = some c →
            (c == '\n') = false :=
          fun c hc => head_dropWhile_not (p := fun z => z == '\n') hc
        have hx'decomp : x'.takeWhile (fun z => z == '\n') ++
            x'.dropWhile (fun z => z == '\n') = x' :=
          List.takeWhile_append_dropWhile _ _
        have hrepl : x'.takeWhile (fun z => z == '\n') =
            List.replicate (x'.takeWhile (fun z => z == '\n')).length '\n' := by
          rw [List.eq_replicate_iff]
          refine ⟨rfl, fun b hb => ?_⟩
          have := List.mem_takeWhile_imp hb
          simpa using this
        have hdlast : (x'.dropWhile (fun z => z == '\n')).getLast? ≠ some '\n' := by
          rwa [← hx'decomp, List.getLast?_append_of_ne_nil _ hdne] at hxlast
        have hdlen : (x'.dropWhile (fun z => z == '\n')).length ≤ x'.length :=
          (List.dropWhile_suffix _).length_le
        have hsplitL : x' ++ List.replicate k '\n' ++ y =
            List.replicate (x'.takeWhile (fun z => z == '\n')).length '\n' ++
              (x'.dropWhile (fun z => z == '\n') ++ List.replicate k '\n' ++ y) := by
          conv_lhs => rw [← hx'decomp]
          conv_lhs => rw [hrepl]
          simp [List.append_assoc]
        have hdheadb : ∀ c,
            (x'.dropWhile (fun z => z == '\n') ++ List.replicate k '\n' ++ y).head? = some c →
            (c == '\n') = false := by
          intro c hc
          cases hdc : x'.dropWhile (fun z => z == '\n') with
          | nil => exact absurd hdc hdne
          | cons e z =>
            apply hdb c
            rw [hdc]
            rw [hdc] at hc
            simpa using hc
        have hreplall : ∀ c ∈ List.replicate (x'.takeWhile (fun z => z == '\n')).length '\n',
            (c == '\n') = true := by
          intro c hc
          have := List.eq_of_mem_replicate hc
          simpa using this
        obtain ⟨htwL, hdwL⟩ := takeWhile_dropWhile_append
          (List.replicate (x'.takeWhile (fun z => z == '\n')).length '\n')
          (x'.dropWhile (fun z => z == '\n') ++ List.replicate k '\n' ++ y) hreplall hdheadb
        have hih := ih x'.length hx'len (x'.dropWhile (fun z => z == '\n')) y k
          hdlen h3 hdlast hy
        calc collapseNl (('\n' :: x') ++ List.replicate k '\n' ++ y)
            = collapseNl ('\n' :: (x' ++ List.replicate k '\n' ++ y)) := by
              simp [List.cons_append]
          _ = (if 3 ≤ ((x' ++ List.replicate k '\n' ++ y).takeWhile
                  (fun z => z == '\n')).length + 1 then ['\n', '\n']
               else List.replicate (((x' ++ List.replicate k '\n' ++ y).takeWhile
                  (fun z => z == '\n')).length + 1) '\n') ++
                collapseNl ((x' ++ List.replicate k '\n' ++ y).dropWhile
                  (fun z => z == '\n')) := collapseNl_cons_nl _
          _ = (if 3 ≤ (x'.takeWhile (fun z => z == '\n')).length + 1 then ['\n', '\n']
               else List.replicate ((x'.takeWhile (fun z => z == '\n')).length + 1) '\n') ++
                collapseNl (x'.dropWhile (fun z => z == '\n') ++
                  List.replicate k '\n' ++ y) := by
              rw [hsplitL, htwL, hdwL]
              simp
          _ = (if 3 ≤ (x'.takeWhile (fun z => z == '\n')).length + 1 then ['\n', '\n']
               else List.replicate ((x'.takeWhile (fun z => z == '\n')).length + 1) '\n') ++
                (collapseNl (x'.dropWhile (fun z => z == '\n')) ++
                  '\n' :: '\n' :: collapseNl y) := by rw [hih]
          _ = collapseNl ('\n' :: x') ++ '\n' :: '\n' :: collapseNl y := by
              rw [collapseNl_cons_nl x']
              simp [List.append_assoc]
      · have hx'last : x'.getLast? ≠ some '\n' := by
          cases x' with
          | nil => simp
          | cons e z =>
            have heq : (c :: e :: z).getLast? = (e :: z).getLast? := by
              rw [← List.singleton_append]
              exact List.getLast?_append_of_ne_nil _ (by simp)
            rw [← heq]
            exact hx
        have hih := ih x'.length hx'len x' y k le_rfl h3 hx'last hy
        simp only [List.cons_append]
        rw [collapseNl_cons_ne hc, collapseNl_cons_ne hc, hih]
        simp

/-- Unfolding the extractor when the scan finds no match. -/
theorem extract_no_match {idGen : Nat → String} {text : String}
    (h : (scanFrom text.toList).1 = []) :
    extractToolCallsFromText idGen text = (none, some text) := by
  have hisE : ((scanFrom text.toList).1.map (fun p => p.2)).isEmpty = true := by
    rw [h]; rfl
  simp only [extractToolCallsFromText, hisE, if_true]

/-- Unfolding the extractor when the scan finds at least one match. -/
theorem extract_match {idGen : Nat → String} {text : String}
    (h : ¬ (scanFrom text.toList).1 = []) :
    extractToolCallsFromText idGen text =
      (some (((scanFrom text.toList).1.map (fun p => p.2)).enum.map (fun p =>
        { id := idGen p.1, type := "function",
          function := { name := String.mk p.2.name,
                        arguments := String.mk p.2.args } : ToolCall })),
       if String.mk (collapseNl (pyStrip (removedText text)).toList) = "" then none
       else some (String.mk (collapseNl (pyStrip (removedText text)).toList))) := by
  have hisE : ((scanFrom text.toList).1.map (fun p => p.2)).isEmpty = false := by
    cases hsc : (scanFrom text.toList).1 with
    | nil => exact absurd hsc h
    | cons a l => rfl
  simp only [extractToolCallsFromText, hisE, Bool.false_eq_true, if_false]

/-- The collapsed text is the empty string exactly when its input was. -/
theorem collapseNl_string_empty_iff (t : String) :
    String.mk (collapseNl t.toList) = "" ↔ t = "" := by
  constructor
  · intro h
    have hl : collapseNl t.toList = [] := congrArg String.toList h
    by_cases ht : t.toList = []
    · exact String.ext ht
    · exact absurd hl (collapseNl_ne_nil ht)
  · intro h
    rw [h]
    rfl

/-- Claim C4: the extractor (i) decomposes the text into unmatched gaps and
matched call-shaped substrings which concatenate back to the original — and
the leftover it returns is built from the gaps alone, so every matched
substring is removed; (ii) turns every match, in order, into one call with
that match's name and arguments; (iii) returns no calls (`None`, the code's
value for an empty call list) together with the original text unchanged when
there is no match; (iv) after removal and trimming returns `None` exactly
when nothing remains — never the empty string — and any returned leftover is
non-empty with no three consecutive newlines left in it; and (v) the
blank-line cleanup collapses every maximal run of `k ≥ 3` newlines (which
covers every run of three or more blank lines, a run of `b` blank lines
being `b + 1` newlines) to exactly two newlines, i.e. one blank line. -/
theorem extractToolCalls_removal_properties (idGen : Nat → String) (text : String) :
    (((scanFrom text.toList).1.map (fun q => q.1 ++ q.2.whole)).flatten ++
        (scanFrom text.toList).2 = text.toList) ∧
    (((extractToolCallsFromText idGen text).1.getD []).map
        (fun tc => (tc.function.name, tc.function.arguments)) =
      (scanFrom text.toList).1.map (fun q => (String.mk q.2.name, String.mk q.2.args))) ∧
    ((scanFrom text.toList).1 = [] →
      extractToolCallsFromText idGen text = (none, some text)) ∧
    ((scanFrom text.toList).1 ≠ [] →
      (∀ s, (extractToolCallsFromText idGen text).2 = some s →
        s ≠ "" ∧ hasNlRun3 s.toList = false) ∧
      ((extractToolCallsFromText idGen text).2 = none ↔
        pyStrip (removedText text) = "")) ∧
    (∀ (u v : List Char) (k : Nat), 3 ≤ k → u.getLast? ≠ some '\n' →
      v.head? ≠ some '\n' →
      collapseNl (u ++ List.replicate k '\n' ++ v) =
        collapseNl u ++ '\n' :: '\n' :: collapseNl v) := by
  refine ⟨scanFromF_reconstruct text.toList.length text.toList le_rfl, ?_, ?_, ?_,
    collapseNl_decomp⟩
  · by_cases hempty : (scanFrom text.toList).1 = []
    · rw [extract_no_match hempty, hempty]
      rfl
    · rw [extract_match hempty]
      simp only [Option.getD_some, List.map_map]
      rw [show ((fun tc : ToolCall => (tc.function.name, tc.function.arguments)) ∘
          (fun p : Nat × TCMatch =>
            ({ id := idGen p.1, type := "function",
               function := { name := String.mk p.2.name,
                             arguments := String.mk p.2.args } : ToolCall }))) =
        ((fun m : TCMatch => (String.mk m.name, String.mk m.args)) ∘ Prod.snd) from rfl]
      rw [← List.map_map, List.enum_map_snd, List.map_map]
      rfl
  · intro hempty
    exact extract_no_match hempty
  · intro hne
    have hproj : (extractToolCallsFromText idGen text).2 =
        (if String.mk (collapseNl (pyStrip (removedText text)).toList) = "" then none
         else some (String.mk (collapseNl (pyStrip (removedText text)).toList))) := by
      rw [extract_match hne]
    constructor
    · intro s hs
      rw [hproj] at hs
      split at hs
      · exact absurd hs (by simp)
      · next hne2 =>
        injection hs with hs'
        subst hs'
        exact ⟨hne2, hasNlRun3_collapseNl _⟩
    · rw [hproj]
      by_cases hr : String.mk (collapseNl (pyStrip (removedText text)).toList) = ""
      · rw [if_pos hr]
        exact ⟨fun _ => (collapseNl_string_empty_iff _).mp hr, fun _ => rfl⟩
      · rw [if_neg hr]
        exact ⟨fun h => absurd h (by simp),
          fun h => absurd ((collapseNl_string_empty_iff _).mpr h) hr⟩
